import Mathlib

/-!
# Boodler event-scheduling and channel-hierarchy core: verified model

This development embeds the event scheduling / channel hierarchy engine of
the Boodler soundscape tool.  The repository ships the built-in agents
(`src/boodle/builtin.py`) directly; the engine itself (envelopes, channel
tree, scheduler) is described by the specification, so those parts are
modelled from the spec.  Times and values are rationals (the source uses
Python floats; we model exact arithmetic).
-/

namespace Boodler

/-- Modelled from the spec: an envelope (`boodle` volume/pan ramp, §3/§4.1,
not under `src/`).  Attributes: start value `v0` captured at install time,
target value, start time, duration. -/
structure Envelope where
  v0 : ℚ
  target : ℚ
  start : ℚ
  duration : ℚ
deriving Repr, DecidableEq

/-- Modelled from the spec: `value_at(envelope, time)` (§4.1, not under
`src/`).  For `time < start` the value current before install (`v0`);
for `duration == 0` or `time >= start + duration` the target (per the §3
invariant the jump to target happens at start time itself when the
duration is zero); strictly inside the ramp, linear interpolation. -/
def value_at (e : Envelope) (t : ℚ) : ℚ :=
  if t < e.start then e.v0
  else if e.duration = 0 ∨ e.start + e.duration ≤ t then e.target
  else e.v0 + (e.target - e.v0) * (t - e.start) / e.duration

/-- Modelled from the spec: installing a new envelope (§4.1, not under
`src/`) anchors `v0` at the previous envelope's value at install time. -/
def installEnvelope (old : Envelope) (now target duration : ℚ) : Envelope :=
  { v0 := value_at old now, target := target, start := now, duration := duration }

/-- On the closed ramp interval the value is the interpolation formula. -/
theorem value_at_formula (e : Envelope) (hd : 0 < e.duration) (t : ℚ)
    (h1 : e.start ≤ t) (h2 : t ≤ e.start + e.duration) :
    value_at e t = e.v0 + (e.target - e.v0) * (t - e.start) / e.duration := by
  unfold value_at
  rw [if_neg (not_lt.mpr h1)]
  by_cases hend : e.duration = 0 ∨ e.start + e.duration ≤ t
  · have hte : t = e.start + e.duration :=
      le_antisymm h2 (hend.resolve_left (ne_of_gt hd))
    rw [if_pos hend, hte]
    field_simp
  · rw [if_neg hend]

/-- Monotonicity of the interpolation formula on the ramp. -/
theorem value_at_mono_on (e : Envelope) (hd : 0 < e.duration) (t1 t2 : ℚ)
    (ha : e.start ≤ t1) (hb : t1 ≤ t2) (hc : t2 ≤ e.start + e.duration) :
    (e.v0 ≤ e.target → value_at e t1 ≤ value_at e t2) ∧
    (e.target ≤ e.v0 → value_at e t2 ≤ value_at e t1) := by
  rw [value_at_formula e hd t1 ha (le_trans hb hc),
      value_at_formula e hd t2 (le_trans ha hb) hc]
  constructor
  · intro hv
    have h1 : (e.target - e.v0) * (t1 - e.start) / e.duration ≤
        (e.target - e.v0) * (t2 - e.start) / e.duration := by
      rw [div_le_div_iff₀ hd hd]
      have := mul_le_mul_of_nonneg_left (sub_le_sub_right hb e.start)
        (sub_nonneg.mpr hv)
      exact mul_le_mul_of_nonneg_right this (le_of_lt hd)
    linarith
  · intro hv
    have h1 : (e.target - e.v0) * (t2 - e.start) / e.duration ≤
        (e.target - e.v0) * (t1 - e.start) / e.duration := by
      rw [div_le_div_iff₀ hd hd]
      have key : 0 ≤ (e.v0 - e.target) * ((t2 - t1) * e.duration) :=
        mul_nonneg (by linarith) (mul_nonneg (by linarith) (le_of_lt hd))
      nlinarith [key]
    linarith

/-- On the ramp interval the value stays between `v0` and `target`. -/
theorem value_at_bounds_on (e : Envelope) (hd : 0 < e.duration) (t : ℚ)
    (ha : e.start ≤ t) (hb : t ≤ e.start + e.duration) :
    min e.v0 e.target ≤ value_at e t ∧ value_at e t ≤ max e.v0 e.target := by
  rw [value_at_formula e hd t ha hb]
  have h0 : (0 : ℚ) ≤ t - e.start := sub_nonneg.mpr ha
  have h1 : t - e.start ≤ e.duration := by linarith
  rcases le_total e.v0 e.target with hv | hv
  · rw [min_eq_left hv, max_eq_right hv]
    constructor
    · have : (0 : ℚ) ≤ (e.target - e.v0) * (t - e.start) / e.duration :=
        div_nonneg (mul_nonneg (sub_nonneg.mpr hv) h0) (le_of_lt hd)
      linarith
    · have : (e.target - e.v0) * (t - e.start) / e.duration ≤ e.target - e.v0 := by
        rw [div_le_iff₀ hd]
        exact mul_le_mul_of_nonneg_left h1 (sub_nonneg.mpr hv)
      linarith
  · rw [min_eq_right hv, max_eq_left hv]
    constructor
    · have key : e.target - e.v0 ≤ (e.target - e.v0) * (t - e.start) / e.duration := by
        rw [le_div_iff₀ hd]
        nlinarith [mul_nonneg (sub_nonneg.mpr hv) (sub_nonneg.mpr h1)]
      linarith
    · have : (e.target - e.v0) * (t - e.start) / e.duration ≤ 0 := by
        rw [div_le_iff₀ hd]
        nlinarith [sub_nonneg.mpr hv]
      linarith

/-- Claim C1: for every envelope with positive duration, `value_at` is `v0`
at the start, `target` at `start + duration`, the linear interpolation
strictly inside the ramp, and it moves monotonically between `v0` and
`target` on that interval. -/
theorem claim1_value_at_ramp (e : Envelope) (hd : 0 < e.duration) :
    value_at e e.start = e.v0 ∧
    value_at e (e.start + e.duration) = e.target ∧
    (∀ t, e.start < t → t < e.start + e.duration →
      value_at e t = e.v0 + (e.target - e.v0) * (t - e.start) / e.duration) ∧
    (∀ t1 t2, e.start ≤ t1 → t1 ≤ t2 → t2 ≤ e.start + e.duration →
      (e.v0 ≤ e.target → value_at e t1 ≤ value_at e t2) ∧
      (e.target ≤ e.v0 → value_at e t2 ≤ value_at e t1)) ∧
    (∀ t, e.start ≤ t → t ≤ e.start + e.duration →
      min e.v0 e.target ≤ value_at e t ∧ value_at e t ≤ max e.v0 e.target) := by
  refine ⟨?_, ?_, ?_, ?_, ?_⟩
  · rw [value_at_formula e hd e.start le_rfl (by linarith)]
    ring
  · rw [value_at_formula e hd (e.start + e.duration) (by linarith) le_rfl]
    field_simp
  · intro t h1 h2
    exact value_at_formula e hd t (le_of_lt h1) (le_of_lt h2)
  · intro t1 t2 ha hb hc
    exact value_at_mono_on e hd t1 t2 ha hb hc
  · intro t ha hb
    exact value_at_bounds_on e hd t ha hb

/-- Witness for C1 at the concrete envelope ramping 0 to 1 over 2 ticks. -/
theorem claim1_witness :
    0 < (Envelope.mk 0 1 0 2).duration ∧
    (value_at (Envelope.mk 0 1 0 2) 0 = 0 ∧
     value_at (Envelope.mk 0 1 0 2) (0 + 2) = 1 ∧
     (∀ t, (0 : ℚ) < t → t < 0 + 2 →
       value_at (Envelope.mk 0 1 0 2) t = 0 + (1 - 0) * (t - 0) / 2) ∧
     (∀ t1 t2, (0 : ℚ) ≤ t1 → t1 ≤ t2 → t2 ≤ 0 + 2 →
       ((0 : ℚ) ≤ 1 → value_at (Envelope.mk 0 1 0 2) t1 ≤
         value_at (Envelope.mk 0 1 0 2) t2) ∧
       ((1 : ℚ) ≤ 0 → value_at (Envelope.mk 0 1 0 2) t2 ≤
         value_at (Envelope.mk 0 1 0 2) t1)) ∧
     (∀ t, (0 : ℚ) ≤ t → t ≤ 0 + 2 →
       min (0 : ℚ) 1 ≤ value_at (Envelope.mk 0 1 0 2) t ∧
       value_at (Envelope.mk 0 1 0 2) t ≤ max (0 : ℚ) 1)) :=
  ⟨by norm_num, claim1_value_at_ramp (Envelope.mk 0 1 0 2) (by norm_num)⟩

/-- Claim C7: for a zero-duration envelope the value is the target at every
time from the start on (the value jumps to the target at the start). -/
theorem claim7_value_at_zero_duration (e : Envelope) (t : ℚ)
    (h0 : e.duration = 0) (hs : e.start ≤ t) :
    value_at e t = e.target := by
  unfold value_at
  rw [if_neg (not_lt.mpr hs), if_pos (Or.inl h0)]

/-- Witness for C7 at a concrete zero-duration envelope, right at the start. -/
theorem claim7_witness :
    (Envelope.mk 5 7 3 0).duration = 0 ∧ (Envelope.mk 5 7 3 0).start ≤ 3 ∧
    value_at (Envelope.mk 5 7 3 0) 3 = 7 :=
  ⟨rfl, le_rfl, claim7_value_at_zero_duration (Envelope.mk 5 7 3 0) 3 rfl le_rfl⟩

/-- Modelled from the spec: a `ScheduledEvent` (§3, not under `src/`):
absolute fire time, insertion sequence number (the tie-breaker), target
channel, opaque payload identifier. -/
structure ScheduledEvent where
  time : ℚ
  seqno : Nat
  target : Nat
  payload : Nat
deriving Repr, DecidableEq

/-- Modelled from the spec: one channel record in the arena (§3/§9, not
under `src/`): identifier, parent identifier, liveness flag, volume and
pan envelopes. -/
structure ChanRec where
  id : Nat
  parent : Option Nat
  active : Bool
  vol : Envelope
  pan : Envelope
deriving Repr, DecidableEq

/-- Modelled from the spec: the scheduler state (§4.3/§5, not under
`src/`): logical clock, insertion counter, channel arena, and the pending
event queue kept sorted by (fire time, insertion sequence). -/
structure SchedState where
  now : ℚ
  counter : Nat
  channels : List ChanRec
  queue : List ScheduledEvent
deriving Repr, DecidableEq

/-- Modelled from the spec: the error taxonomy (§7, not under `src/`). -/
inductive SchedError where
  | invalidChannel
  | invalidSchedule
deriving Repr, DecidableEq

/-- Look up a channel record by identifier in the arena. -/
def getChan (st : SchedState) (c : Nat) : Option ChanRec :=
  st.channels.find? (fun r => r.id = c)

/-- A channel is active when its record exists and its flag is set. -/
def isActive (st : SchedState) (c : Nat) : Bool :=
  match getChan st c with
  | some r => r.active
  | none => false

/-- Modelled from the spec: `set_volume(channel, target, duration)` (§4.2,
not under `src/`): errors on an inactive channel, otherwise replaces the
channel's volume envelope with one anchored at the current scheduler time
and the current interpolated value. -/
def set_volume (st : SchedState) (c : Nat) (target duration : ℚ) :
    Except SchedError SchedState :=
  if isActive st c then
    .ok { st with channels := st.channels.map (fun r =>
      if r.id = c then { r with vol := installEnvelope r.vol st.now target duration }
      else r) }
  else .error .invalidChannel

/-- Modelled from the spec: `set_pan(channel, target, duration)` (§4.2,
not under `src/`), the pan analogue of `set_volume`. -/
def set_pan (st : SchedState) (c : Nat) (target duration : ℚ) :
    Except SchedError SchedState :=
  if isActive st c then
    .ok { st with channels := st.channels.map (fun r =>
      if r.id = c then { r with pan := installEnvelope r.pan st.now target duration }
      else r) }
  else .error .invalidChannel

/-- `find?` after a map that preserves the searched key finds the image of
the original hit. -/
theorem find?_map_preserving (l : List ChanRec) (c : Nat) (f : ChanRec → ChanRec)
    (hid : ∀ r, (f r).id = r.id) (r : ChanRec)
    (hr : l.find? (fun r => r.id = c) = some r) :
    (l.map f).find? (fun r => r.id = c) = some (f r) := by
  induction l with
  | nil => simp at hr
  | cons a l ih =>
    simp only [List.find?_cons, List.map_cons] at hr ⊢
    by_cases hac : a.id = c
    · simp only [hac, decide_True] at hr
      simp only [hid, hac, decide_True]
      cases hr
      rfl
    · simp only [hac, decide_False] at hr
      simp only [hid, hac, decide_False]
      exact ih hr

/-- Anchoring gives continuity: with a positive duration, the freshly
installed envelope agrees with the old one at install time. -/
theorem installEnvelope_value_at (old : Envelope) (now target duration : ℚ)
    (hd : 0 < duration) :
    value_at (installEnvelope old now target duration) now = value_at old now := by
  rw [value_at_formula (installEnvelope old now target duration) hd now le_rfl
    (by simp only [installEnvelope]; linarith)]
  simp [installEnvelope]

/-- Claim C2 (amended): a `set_volume`/`set_pan` call with positive ramp
duration installs an envelope anchored at the previous envelope's value at
install time, so the new envelope agrees with the old one at install time:
no discontinuity when redirecting a ramp mid-flight. -/
theorem claim2_set_continuity (st : SchedState) (c : Nat) (tgt dur : ℚ)
    (r : ChanRec) (hr : getChan st c = some r) (hact : isActive st c = true)
    (hd : 0 < dur) :
    (∃ st2, set_volume st c tgt dur = .ok st2 ∧
      getChan st2 c = some { r with vol := installEnvelope r.vol st.now tgt dur } ∧
      value_at (installEnvelope r.vol st.now tgt dur) st.now = value_at r.vol st.now) ∧
    (∃ st2, set_pan st c tgt dur = .ok st2 ∧
      getChan st2 c = some { r with pan := installEnvelope r.pan st.now tgt dur } ∧
      value_at (installEnvelope r.pan st.now tgt dur) st.now = value_at r.pan st.now) := by
  have hrc : r.id = c := by
    have := List.find?_some hr
    simpa using this
  constructor
  · refine ⟨_, by rw [set_volume, if_pos hact], ?_, installEnvelope_value_at _ _ _ _ hd⟩
    have := find?_map_preserving st.channels c
      (fun x => if x.id = c then { x with vol := installEnvelope x.vol st.now tgt dur } else x)
      (by intro x; by_cases hx : x.id = c <;> simp [hx]) r hr
    simpa [getChan, hrc] using this
  · refine ⟨_, by rw [set_pan, if_pos hact], ?_, installEnvelope_value_at _ _ _ _ hd⟩
    have := find?_map_preserving st.channels c
      (fun x => if x.id = c then { x with pan := installEnvelope x.pan st.now tgt dur } else x)
      (by intro x; by_cases hx : x.id = c <;> simp [hx]) r hr
    simpa [getChan, hrc] using this

/-- A concrete channel resting at volume 1 since time 0. -/
def chan0 : ChanRec :=
  { id := 0, parent := none, active := true,
    vol := { v0 := 1, target := 1, start := 0, duration := 0 },
    pan := { v0 := 0, target := 0, start := 0, duration := 0 } }

/-- A concrete scheduler state at time 5 with the single channel `chan0`. -/
def oneChanState : SchedState :=
  { now := 5, counter := 0, channels := [chan0], queue := [] }

/-- Counterexample to C2 as stated: a `set_volume` call with duration 0
(an immediate jump) installs an envelope whose value at install time is
the new target, not the previous envelope's value, so the claim fails when
quantified over every `set_volume` call. -/
theorem claim2_counterexample :
    set_volume oneChanState 0 0 0 =
      .ok { oneChanState with channels :=
        [{ chan0 with vol := { v0 := 1, target := 0, start := 5, duration := 0 } }] } ∧
    value_at { v0 := 1, target := 0, start := 5, duration := 0 } 5 = 0 ∧
    value_at chan0.vol 5 = 1 ∧ (0 : ℚ) ≠ 1 := by
  refine ⟨?_, by decide, by decide, by norm_num⟩
  rfl

/-- Witness for C2 at the concrete state `oneChanState` with duration 1. -/
theorem claim2_witness :
    (∃ st2, set_volume oneChanState 0 0 1 = .ok st2 ∧
      getChan st2 0 = some { chan0 with
        vol := installEnvelope chan0.vol oneChanState.now 0 1 } ∧
      value_at (installEnvelope chan0.vol oneChanState.now 0 1) oneChanState.now =
        value_at chan0.vol oneChanState.now) ∧
    (∃ st2, set_pan oneChanState 0 0 1 = .ok st2 ∧
      getChan st2 0 = some { chan0 with
        pan := installEnvelope chan0.pan oneChanState.now 0 1 } ∧
      value_at (installEnvelope chan0.pan oneChanState.now 0 1) oneChanState.now =
        value_at chan0.pan oneChanState.now) :=
  claim2_set_continuity oneChanState 0 0 1 chan0 (by decide) (by decide) (by norm_num)

/-- The ordering key of the event queue (§3): fire time ascending, with
ties broken by insertion sequence ascending. -/
def evLT (a b : ScheduledEvent) : Prop :=
  a.time < b.time ∨ (a.time = b.time ∧ a.seqno < b.seqno)

instance evLT.instDecidable (a b : ScheduledEvent) : Decidable (evLT a b) := by
  unfold evLT
  infer_instance

/-- `evLT` is transitive. -/
theorem evLT_trans {a b c : ScheduledEvent} (h1 : evLT a b) (h2 : evLT b c) :
    evLT a c := by
  rcases h1 with h1 | ⟨h1, h1s⟩ <;> rcases h2 with h2 | ⟨h2, h2s⟩
  · exact Or.inl (lt_trans h1 h2)
  · exact Or.inl (h2 ▸ h1)
  · exact Or.inl (h1 ▸ h2)
  · exact Or.inr ⟨h1.trans h2, lt_trans h1s h2s⟩

/-- Modelled from the spec: insertion into the time-ordered priority queue
(§2/§4.3, not under `src/`).  A new event goes after every queued event
whose key precedes it, so arrival order breaks fire-time ties. -/
def insertEvent (ev : ScheduledEvent) : List ScheduledEvent → List ScheduledEvent
  | [] => [ev]
  | e :: rest => if evLT ev e then ev :: e :: rest else e :: insertEvent ev rest

/-- Membership in the queue after insertion. -/
theorem insertEvent_mem (ev a : ScheduledEvent) (q : List ScheduledEvent) :
    a ∈ insertEvent ev q ↔ a = ev ∨ a ∈ q := by
  induction q with
  | nil => simp [insertEvent]
  | cons e rest ih =>
    by_cases h : evLT ev e
    · simp [insertEvent, h]
    · simp [insertEvent, h, ih]
      tauto

/-- Inserting an event whose sequence number exceeds every queued one
preserves strict (time, sequence) sortedness. -/
theorem insertEvent_pairwise (ev : ScheduledEvent) (q : List ScheduledEvent)
    (hq : q.Pairwise evLT) (hseq : ∀ e ∈ q, e.seqno < ev.seqno) :
    (insertEvent ev q).Pairwise evLT := by
  induction q with
  | nil => simp [insertEvent]
  | cons e rest ih =>
    rcases List.pairwise_cons.mp hq with ⟨he, hrest⟩
    by_cases h : evLT ev e
    · rw [insertEvent, if_pos h]
      refine List.pairwise_cons.mpr ⟨?_, hq⟩
      intro x hx
      rcases List.mem_cons.mp hx with hx | hx
      · subst hx
        exact h
      · exact evLT_trans h (he x hx)
    · rw [insertEvent, if_neg h]
      refine List.pairwise_cons.mpr ⟨?_, ih hrest (fun x hx => hseq x (List.mem_cons_of_mem e hx))⟩
      intro x hx
      rcases (insertEvent_mem ev x rest).mp hx with hx | hx
      · subst hx
        rcases lt_trichotomy e.time x.time with ht | ht | ht
        · exact Or.inl ht
        · exact Or.inr ⟨ht, hseq e (List.mem_cons_self e rest)⟩
        · exact absurd (Or.inl ht) h
      · exact he x hx

/-- Modelled from the spec: `schedule(channel, delay, payload)` (§4.3, §7,
not under `src/`).  An inactive channel is an `InvalidChannelError`; a
negative delay is an `InvalidScheduleError` (per the §7 taxonomy);
otherwise the event is inserted at `now + delay` carrying the next
insertion sequence number, and nothing is dispatched. -/
def schedule (st : SchedState) (c : Nat) (delay : ℚ) (payload : Nat) :
    Except SchedError SchedState :=
  if isActive st c then
    if delay < 0 then .error .invalidSchedule
    else .ok { st with
      queue := insertEvent
        { time := st.now + delay, seqno := st.counter, target := c, payload := payload }
        st.queue,
      counter := st.counter + 1 }
  else .error .invalidChannel

/-- Modelled from the spec: `advance_to(target_time)` (§4.3, not under
`src/`).  From the sorted queue it repeatedly pops every event with fire
time at most the target (returned here as the dispatched list, in pop
order; payload side effects are interpreted by the caller) and leaves the
rest pending, with the clock at the target time. -/
def advance_to (st : SchedState) (T : ℚ) :
    List ScheduledEvent × SchedState :=
  (st.queue.takeWhile (fun ev => decide (ev.time ≤ T)),
   { st with queue := st.queue.dropWhile (fun ev => decide (ev.time ≤ T)), now := T })

/-- After dropping the due prefix, taking it again yields nothing. -/
theorem takeWhile_dropWhile_nil {α : Type} (p : α → Bool) (l : List α) :
    (l.dropWhile p).takeWhile p = [] := by
  induction l with
  | nil => rfl
  | cons x xs ih =>
    by_cases h : p x
    · simp [List.dropWhile_cons, h, ih]
    · simp [List.dropWhile_cons, List.takeWhile_cons, h]

/-- Dropping the due prefix twice is the same as dropping it once. -/
theorem dropWhile_idem {α : Type} (p : α → Bool) (l : List α) :
    (l.dropWhile p).dropWhile p = l.dropWhile p := by
  induction l with
  | nil => rfl
  | cons x xs ih =>
    by_cases h : p x
    · simp [List.dropWhile_cons, h, ih]
    · simp [List.dropWhile_cons, h]

/-- Claim C6: `advance_to` is idempotent — a second `advance_to` with the
same target time and no new scheduling dispatches no events and leaves the
state unchanged. -/
theorem claim6_advance_to_idempotent (st : SchedState) (T : ℚ) :
    (advance_to (advance_to st T).2 T).1 = [] ∧
    (advance_to (advance_to st T).2 T).2 = (advance_to st T).2 := by
  unfold advance_to
  refine ⟨takeWhile_dropWhile_nil _ _, ?_⟩
  simp [dropWhile_idem]

/-- Claim C4: from a queue sorted by the (fire time, insertion sequence)
key, `advance_to` dispatches events strictly in that order — so events
with equal fire times go in insertion order — dispatches only events due
at the target time, and keeps the remaining queue sorted. -/
theorem claim4_dispatch_order (st : SchedState) (T : ℚ)
    (h : st.queue.Pairwise evLT) :
    (advance_to st T).1.Pairwise evLT ∧
    (∀ a ∈ (advance_to st T).1, a.time ≤ T) ∧
    (advance_to st T).2.queue.Pairwise evLT := by
  refine ⟨h.sublist (List.takeWhile_sublist _), ?_, h.sublist (List.dropWhile_sublist _)⟩
  intro a ha
  have := List.mem_takeWhile_imp ha
  simpa using this

/-- State invariant: the queue is sorted by the strict (time, sequence)
key and every queued sequence number is below the insertion counter. -/
def SchedState.WF (st : SchedState) : Prop :=
  st.queue.Pairwise evLT ∧ ∀ ev ∈ st.queue, ev.seqno < st.counter

/-- Claim C5 (amended): `schedule` fails with `InvalidChannelError` on an
inactive channel and with `InvalidScheduleError` on a negative delay (the
§7 taxonomy); otherwise it inserts exactly one `ScheduledEvent` at
`now + delay` carrying the next insertion sequence number — keeping the
queue sorted, so ties break by insertion order — dispatches nothing, and
leaves the clock and channels untouched. -/
theorem claim5_schedule_spec (st : SchedState) (c : Nat) (delay : ℚ)
    (payload : Nat) :
    (isActive st c = false → schedule st c delay payload = .error .invalidChannel) ∧
    (isActive st c = true → delay < 0 →
      schedule st c delay payload = .error .invalidSchedule) ∧
    (isActive st c = true → 0 ≤ delay →
      ∃ st2, schedule st c delay payload = .ok st2 ∧
        st2.now = st.now ∧ st2.counter = st.counter + 1 ∧
        st2.channels = st.channels ∧
        (∀ ev, ev ∈ st2.queue ↔
          ev = { time := st.now + delay, seqno := st.counter, target := c,
                 payload := payload } ∨ ev ∈ st.queue) ∧
        (st.WF → st2.WF)) := by
  refine ⟨?_, ?_, ?_⟩
  · intro hact
    simp [schedule, hact]
  · intro hact hneg
    simp [schedule, hact, hneg]
  · intro hact hnn
    refine ⟨{ st with
        queue := insertEvent ⟨st.now + delay, st.counter, c, payload⟩ st.queue,
        counter := st.counter + 1 }, ?_, rfl, rfl, rfl, ?_, ?_⟩
    · unfold schedule
      rw [if_pos hact, if_neg (not_lt.mpr hnn)]
    · intro ev
      exact insertEvent_mem _ ev st.queue
    · rintro ⟨hp, hb⟩
      refine ⟨insertEvent_pairwise _ _ hp (fun e he => hb e he), ?_⟩
      intro ev hev
      rcases (insertEvent_mem _ ev st.queue).mp hev with h | h
      · subst h
        exact Nat.lt_succ_self _
      · exact Nat.lt_succ_of_lt (hb ev h)

/-- Counterexample to C5 as stated: on an active channel a negative delay
fails with `InvalidScheduleError`, not `InvalidChannelError`. -/
theorem claim5_counterexample :
    schedule oneChanState 0 (-1) 99 = .error .invalidSchedule ∧
    schedule oneChanState 0 (-1) 99 ≠ .error .invalidChannel := by
  refine ⟨rfl, ?_⟩
  intro h
  rw [show schedule oneChanState 0 (-1) 99 = .error .invalidSchedule from rfl] at h
  injection h with h2
  exact absurd h2 (by decide)

/-- Witness for C5 at the concrete one-channel state, delay 2, payload 7. -/
theorem claim5_witness :
    (isActive oneChanState 0 = false →
      schedule oneChanState 0 2 7 = .error .invalidChannel) ∧
    (isActive oneChanState 0 = true → (2 : ℚ) < 0 →
      schedule oneChanState 0 2 7 = .error .invalidSchedule) ∧
    (isActive oneChanState 0 = true → (0 : ℚ) ≤ 2 →
      ∃ st2, schedule oneChanState 0 2 7 = .ok st2 ∧
        st2.now = oneChanState.now ∧ st2.counter = oneChanState.counter + 1 ∧
        st2.channels = oneChanState.channels ∧
        (∀ ev, ev ∈ st2.queue ↔
          ev = { time := oneChanState.now + 2, seqno := oneChanState.counter,
                 target := 0, payload := 7 } ∨ ev ∈ oneChanState.queue) ∧
        (oneChanState.WF → st2.WF)) :=
  claim5_schedule_spec oneChanState 0 2 7

/-- Two events at the same fire time on different channels, scheduled in
the order of their sequence numbers. -/
def twoEventState : SchedState :=
  { now := 0, counter := 2, channels := [chan0],
    queue := [{ time := 3, seqno := 0, target := 0, payload := 10 },
              { time := 3, seqno := 1, target := 5, payload := 11 }] }

/-- Witness for C4: equal fire times on different channels dispatch in
insertion order. -/
theorem claim4_witness :
    twoEventState.queue.Pairwise evLT ∧
    ((advance_to twoEventState 3).1.Pairwise evLT ∧
     (∀ a ∈ (advance_to twoEventState 3).1, a.time ≤ 3) ∧
     (advance_to twoEventState 3).2.queue.Pairwise evLT) :=
  ⟨by decide, claim4_dispatch_order twoEventState 3 (by decide)⟩

/-- Parent identifier of channel `d` in the arena, if the record exists. -/
def parentOf (arena : List ChanRec) (d : Nat) : Option Nat :=
  match arena.find? (fun r => r.id = d) with
  | some r => r.parent
  | none => none

/-- Identifiers of the channels whose parent pointer is `c`. -/
def childIds (arena : List ChanRec) (c : Nat) : List Nat :=
  (arena.filter (fun r => r.parent = some c)).map (fun r => r.id)

/-- Fuel-bounded downward closure of the child relation: `c` together with
every descendant reachable within the fuel. -/
def subtree : Nat → List ChanRec → Nat → List Nat
  | 0, _, _ => []
  | fuel + 1, arena, c => c :: (childIds arena c).flatMap (subtree fuel arena)

/-- Fuel-bounded upward reachability: does following parent links from `d`
reach `c` within the fuel? -/
def isDescB (arena : List ChanRec) : Nat → Nat → Nat → Bool
  | 0, _, _ => false
  | fuel + 1, d, c =>
    d == c ||
      (match parentOf arena d with
       | some p => isDescB arena fuel p c
       | none => false)

/-- The set of channels `stop(c)` acts on: `c` and its descendants, with
fuel one more than the arena size. -/
def stopSet (st : SchedState) (c : Nat) : List Nat :=
  subtree (st.channels.length + 1) st.channels c

/-- Modelled from the spec: `stop(channel)` (§4.2, not under `src/`;
`src/boodle/builtin.py` `StopAgent.run` forwards here).  Marks the channel
and every descendant inactive and cancels every pending event whose
target is one of them; agent payloads of cancelled events never run. -/
def stop (st : SchedState) (c : Nat) : SchedState :=
  { st with
    channels := st.channels.map (fun r =>
      if r.id ∈ stopSet st c then { r with active := false } else r),
    queue := st.queue.filter (fun ev => decide (ev.target ∉ stopSet st c)) }

/-- A member of a subtree extends to the subtree of one more fuel through
one more child edge. -/
theorem subtree_child_extend (fuel : Nat) (arena : List ChanRec)
    (c p d : Nat) (hp : p ∈ subtree fuel arena c) (hd : d ∈ childIds arena p) :
    d ∈ subtree (fuel + 1) arena c := by
  induction fuel generalizing c with
  | zero => simp [subtree] at hp
  | succ fuel ih =>
    rw [subtree] at hp
    rcases List.mem_cons.mp hp with hp | hp
    · subst hp
      rw [subtree]
      refine List.mem_cons_of_mem _ (List.mem_flatMap.mpr ⟨d, hd, ?_⟩)
      rw [subtree]
      exact List.mem_cons_self _ _
    · rcases List.mem_flatMap.mp hp with ⟨ch, hch, hpch⟩
      rw [subtree]
      exact List.mem_cons_of_mem _
        (List.mem_flatMap.mpr ⟨ch, hch, ih ch hpch⟩)

/-- A channel with a recorded parent is among that parent's children. -/
theorem parentOf_mem_childIds (arena : List ChanRec) (d p : Nat)
    (h : parentOf arena d = some p) : d ∈ childIds arena p := by
  unfold parentOf at h
  rcases hfind : arena.find? (fun r => r.id = d) with _ | r
  · rw [hfind] at h
    cases h
  · rw [hfind] at h
    have hmem := List.mem_of_find?_eq_some hfind
    have hid : r.id = d := by simpa using List.find?_some hfind
    refine List.mem_map.mpr ⟨r, List.mem_filter.mpr ⟨hmem, ?_⟩, hid⟩
    simpa using h

/-- Completeness of the downward traversal: any channel whose parent chain
reaches `c` within the fuel is in the subtree with the same fuel. -/
theorem isDescB_mem_subtree (arena : List ChanRec) (fuel d c : Nat)
    (h : isDescB arena fuel d c = true) : d ∈ subtree fuel arena c := by
  induction fuel generalizing d with
  | zero => simp [isDescB] at h
  | succ fuel ih =>
    rw [isDescB, Bool.or_eq_true] at h
    rcases h with h | h
    · have : d = c := by simpa using h
      subst this
      rw [subtree]
      exact List.mem_cons_self _ _
    · rcases hpar : parentOf arena d with _ | p
      · rw [hpar] at h
        cases h
      · rw [hpar] at h
        exact subtree_child_extend fuel arena c p d (ih p h)
          (parentOf_mem_childIds arena d p hpar)

/-- With duplicate-free identifiers, `find?` by a member's id returns that
member. -/
theorem find?_of_nodup (arena : List ChanRec)
    (hnd : (arena.map (fun r => r.id)).Nodup) (r : ChanRec) (hr : r ∈ arena) :
    arena.find? (fun x => x.id = r.id) = some r := by
  induction arena with
  | nil => simp at hr
  | cons a rest ih =>
    rw [List.map_cons, List.nodup_cons] at hnd
    rcases List.mem_cons.mp hr with hr | hr
    · subst hr
      simp [List.find?_cons]
    · have hne : a.id ≠ r.id := by
        intro hcontra
        exact hnd.1 (hcontra ▸ List.mem_map.mpr ⟨r, hr, rfl⟩)
      have hdec : decide (a.id = r.id) = false := by simpa using hne
      rw [List.find?_cons, hdec]
      exact ih hnd.2 hr

/-- With duplicate-free identifiers, being a child of `p` means the parent
pointer reads back as `p`. -/
theorem childIds_parentOf (arena : List ChanRec)
    (hnd : (arena.map (fun r => r.id)).Nodup) (d p : Nat)
    (h : d ∈ childIds arena p) : parentOf arena d = some p := by
  rcases List.mem_map.mp h with ⟨r, hrf, hid⟩
  rcases List.mem_filter.mp hrf with ⟨hmem, hpar⟩
  have hpar2 : r.parent = some p := by simpa using hpar
  subst hid
  unfold parentOf
  rw [find?_of_nodup arena hnd r hmem]
  exact hpar2

/-- Upward reachability extends along one more parent edge at the top. -/
theorem isDescB_top_extend (arena : List ChanRec) (fuel d ch c : Nat)
    (h : isDescB arena fuel d ch = true) (hpar : parentOf arena ch = some c) :
    isDescB arena (fuel + 1) d c = true := by
  induction fuel generalizing d with
  | zero => simp [isDescB] at h
  | succ fuel ih =>
    rw [isDescB, Bool.or_eq_true] at h
    rcases h with h | h
    · have : d = ch := by simpa using h
      subst this
      rw [isDescB, Bool.or_eq_true]
      refine Or.inr ?_
      rw [hpar]
      have hrefl : isDescB arena (fuel + 1) c c = true := by
        rw [isDescB, Bool.or_eq_true]
        exact Or.inl (by simp)
      exact hrefl
    · rcases hp : parentOf arena d with _ | p
      · rw [hp] at h
        cases h
      · rw [hp] at h
        rw [isDescB, Bool.or_eq_true]
        refine Or.inr ?_
        rw [hp]
        exact ih p h

/-- Soundness of the downward traversal under duplicate-free identifiers:
every subtree member's parent chain reaches `c` within the same fuel. -/
theorem mem_subtree_isDescB (arena : List ChanRec)
    (hnd : (arena.map (fun r => r.id)).Nodup) (fuel c d : Nat)
    (h : d ∈ subtree fuel arena c) : isDescB arena fuel d c = true := by
  induction fuel generalizing c with
  | zero => simp [subtree] at h
  | succ fuel ih =>
    rw [subtree] at h
    rcases List.mem_cons.mp h with h | h
    · subst h
      rw [isDescB, Bool.or_eq_true]
      exact Or.inl (by simp)
    · rcases List.mem_flatMap.mp h with ⟨ch, hch, hdch⟩
      exact isDescB_top_extend arena fuel d ch c (ih ch hdch)
        (childIds_parentOf arena hnd ch c hch)

/-- Claim C3: `stop(c)` marks `c` and every descendant inactive, leaves
every other channel record untouched, cancels exactly the pending events
whose target is `c` or a descendant — order of the survivors preserved —
and, for duplicate-free identifiers, the set of stopped channels is
exactly the channels whose parent chain reaches `c`. -/
theorem claim3_stop_exact (st : SchedState) (c : Nat) :
    c ∈ stopSet st c ∧
    (∀ r ∈ (stop st c).channels, r.id ∈ stopSet st c → r.active = false) ∧
    (∀ r ∈ (stop st c).channels, r.id ∉ stopSet st c → r ∈ st.channels) ∧
    (∀ r ∈ st.channels, r.id ∉ stopSet st c → r ∈ (stop st c).channels) ∧
    (∀ ev ∈ (stop st c).queue, ev ∈ st.queue ∧ ev.target ∉ stopSet st c) ∧
    (∀ ev ∈ st.queue, ev.target ∉ stopSet st c → ev ∈ (stop st c).queue) ∧
    List.Sublist (stop st c).queue st.queue ∧
    ((st.channels.map (fun r => r.id)).Nodup →
      ∀ d, d ∈ stopSet st c ↔
        isDescB st.channels (st.channels.length + 1) d c = true) := by
  refine ⟨?_, ?_, ?_, ?_, ?_, ?_, ?_, ?_⟩
  · rw [stopSet, subtree]
    exact List.mem_cons_self _ _
  · intro r hr hid
    simp only [stop] at hr
    rcases List.mem_map.mp hr with ⟨r0, hr0, rfl⟩
    by_cases h0 : r0.id ∈ stopSet st c
    · rw [if_pos h0]
    · rw [if_neg h0] at hid
      exact absurd hid h0
  · intro r hr hid
    simp only [stop] at hr
    rcases List.mem_map.mp hr with ⟨r0, hr0, rfl⟩
    by_cases h0 : r0.id ∈ stopSet st c
    · rw [if_pos h0] at hid
      exact absurd h0 hid
    · rw [if_neg h0]
      exact hr0
  · intro r hr hid
    simp only [stop]
    refine List.mem_map.mpr ⟨r, hr, ?_⟩
    rw [if_neg hid]
  · intro ev hev
    simp only [stop] at hev
    have h := List.mem_filter.mp hev
    exact ⟨h.1, of_decide_eq_true h.2⟩
  · intro ev hev htar
    simp only [stop]
    exact List.mem_filter.mpr ⟨hev, decide_eq_true htar⟩
  · simp only [stop]
    exact List.filter_sublist _
  · intro hnd d
    rw [stopSet]
    exact ⟨mem_subtree_isDescB st.channels hnd _ c d,
           isDescB_mem_subtree st.channels _ d c⟩

/-- The agents of `src/boodle/builtin.py` as a closed variant type (§9);
each constructor carries its Python constructor arguments.
(`TestSoundAgent` is modelled separately by `testSoundNotes`.) -/
inductive AgentKind where
  | nullAgent
  | stopAgent
  | setVolumeAgent (newvol duration : ℚ)
  | setPanAgent (newpan duration : ℚ)
  | fadeOutAgent (duration : ℚ)
  | fadeInOutAgent (agentinst : AgentKind)
      (liveinterval fadeininterval fadeoutinterval : ℚ)
deriving Repr, DecidableEq

/-- `FadeInOutAgent.__init__` from `src/boodle/builtin.py`: with no
explicit fade-out interval, it defaults to the fade-in interval. -/
def mkFadeInOutAgent (agentinst : AgentKind) (liveinterval fadeinterval : ℚ)
    (fadeoutinterval : Option ℚ) : AgentKind :=
  .fadeInOutAgent agentinst liveinterval fadeinterval
    (fadeoutinterval.getD fadeinterval)

/-- One scheduling side effect of an agent's `run` invocation (§9: `run`
maps to a list of further scheduling effects).  `newChannel parent chan v`
records `new_channel(v)` creating `chan` as a child of `parent`. -/
inductive Effect where
  | stopChannel (chan : Nat)
  | setVolume (chan : Nat) (target duration : ℚ)
  | setPan (chan : Nat) (target duration : ℚ)
  | schedAgent (ag : AgentKind) (delay : ℚ) (chan : Nat)
  | newChannel (parent chan : Nat) (initvol : ℚ)
deriving Repr, DecidableEq

/-- The `run` methods of `src/boodle/builtin.py`, as effect lists in
execution order.  `c` is the bound channel, `f` the identifier handed out
by `new_channel`. -/
def agentRun : AgentKind → Nat → Nat → List Effect
  | .nullAgent, _, _ => []
  | .stopAgent, c, _ => [.stopChannel c]
  | .setVolumeAgent newvol duration, c, _ => [.setVolume c newvol duration]
  | .setPanAgent newpan duration, c, _ => [.setPan c newpan duration]
  | .fadeOutAgent duration, c, _ =>
      [.setVolume c 0 duration, .schedAgent .stopAgent duration c]
  | .fadeInOutAgent agentinst liveinterval fadein fadeout, c, f =>
      [.newChannel c f 0, .schedAgent agentinst 0 f, .setVolume f 1 fadein,
       .schedAgent (.fadeOutAgent fadeout) (liveinterval + fadein) f]

/-- Claim C8: `FadeOutAgent.run` performs exactly two effects — a volume
ramp to 0 over its duration on the bound channel, then a `StopAgent`
scheduled on the same channel at delay exactly that duration — and the
ramp envelope it installs reads 0 at the instant the stop fires. -/
theorem claim8_fadeOut_run (c f : Nat) (d : ℚ) (E : Envelope) (now : ℚ)
    (hd : 0 ≤ d) :
    agentRun (.fadeOutAgent d) c f =
      [.setVolume c 0 d, .schedAgent .stopAgent d c] ∧
    value_at (installEnvelope E now 0 d) (now + d) = 0 := by
  refine ⟨rfl, ?_⟩
  have h1 : ¬ now + d < now := by linarith
  have h2 : d = 0 ∨ now + d ≤ now + d := Or.inr le_rfl
  simp only [installEnvelope, value_at]
  rw [if_neg h1, if_pos h2]

/-- Witness for C8 with a fade over half a tick from a resting envelope. -/
theorem claim8_witness :
    (0 : ℚ) ≤ 1 / 2 ∧
    (agentRun (.fadeOutAgent (1 / 2)) 0 1 =
      [.setVolume 0 0 (1 / 2), .schedAgent .stopAgent (1 / 2) 0] ∧
     value_at (installEnvelope (Envelope.mk 1 1 0 0) 0 0 (1 / 2)) (0 + 1 / 2) = 0) :=
  ⟨by norm_num, claim8_fadeOut_run 0 1 (1 / 2) (Envelope.mk 1 1 0 0) 0 (by norm_num)⟩

/-- Claim C9: `FadeInOutAgent.run` creates a fresh child channel at volume
0, schedules the wrapped agent there at delay 0, ramps that channel's
volume to 1 over the fade-in interval, and schedules a `FadeOutAgent` with
the fade-out interval at delay `liveinterval + fade-in`; an omitted
fade-out interval defaults to the fade-in interval. -/
theorem claim9_fadeInOut_run (agentinst : AgentKind) (live fadein fadeout : ℚ)
    (c f : Nat) :
    agentRun (mkFadeInOutAgent agentinst live fadein (some fadeout)) c f =
      [.newChannel c f 0, .schedAgent agentinst 0 f, .setVolume f 1 fadein,
       .schedAgent (.fadeOutAgent fadeout) (live + fadein) f] ∧
    mkFadeInOutAgent agentinst live fadein none =
      .fadeInOutAgent agentinst live fadein fadein :=
  ⟨rfl, rfl⟩

/-- One entry of the `TestSoundAgent.run` pitch sequence: an int, or a
two-note chord tuple. -/
inductive PitchEntry where
  | single (p : Int)
  | chord (p1 p2 : Int)
deriving Repr, DecidableEq

/-- The `pitches` list of `TestSoundAgent.run` (`src/boodle/builtin.py`). -/
def pitches : List PitchEntry :=
  [.single (-5), .single (-6), .single (-3), .single (-4), .single (-1),
   .single (-2), .single 1, .single 0, .chord (-6) (-1), .single (-3),
   .single (-5), .chord 0 3, .chord (-2) 1]

/-- One scheduled test note: the argument passed to `music.get_pitch`, the
argument passed to `stereo.scale` (0 is center), and the delay. -/
structure Note where
  pitch : Int
  pan : Int
  delay : ℚ
deriving Repr, DecidableEq

/-- The note-scheduling loop of `TestSoundAgent.run`: `pos` starts at 0
and advances by 0.145 per pitch entry; a chord emits both pitches at
center pan and does not flip the side; a single note pans to the current
side and flips it. -/
def testNotesAux : List PitchEntry → ℚ → Int → List Note
  | [], _, _ => []
  | .chord p1 p2 :: rest, pos, lr =>
      { pitch := p1, pan := 0, delay := pos } ::
      { pitch := p2, pan := 0, delay := pos } ::
      testNotesAux rest (pos + 29 / 200) lr
  | .single p :: rest, pos, lr =>
      { pitch := p, pan := lr, delay := pos } ::
      testNotesAux rest (pos + 29 / 200) (-lr)

/-- All notes scheduled by one `TestSoundAgent.run` invocation. -/
def testSoundNotes : List Note := testNotesAux pitches 0 1

/-- Claim C10: the test melody's delays step by 0.145 per pitch entry
(chord members share their entry's delay), hence are non-decreasing, and
the pans are center for chord members while successive single-pitch notes
alternate between the two sides of center. -/
theorem claim10_testSound_run :
    testSoundNotes.map (fun n => n.delay) =
      [0, 1, 2, 3, 4, 5, 6, 7, 8, 8, 9, 10, 11, 11, 12, 12].map
        (fun k => (k : ℚ) * (29 / 200)) ∧
    testSoundNotes.map (fun n => n.pan) =
      [1, -1, 1, -1, 1, -1, 1, -1, 0, 0, 1, -1, 0, 0, 0, 0] ∧
    List.Chain' (fun a b => a.delay ≤ b.delay) testSoundNotes := by
  refine ⟨?_, ?_, ?_⟩
  · norm_num [testSoundNotes, pitches, testNotesAux]
  · norm_num [testSoundNotes, pitches, testNotesAux]
  · norm_num [testSoundNotes, pitches, testNotesAux, List.chain'_cons]

end Boodler
